import Mathlib

/-!
# Verification of the `bignum-sub` arithmetic kernels

Shallow embedding of the two fixed-capacity big-integer kernels of the
repository: `bignum_sub` (unsigned subtraction, `src/include/bignum_sub.h`)
and `bignum_template` (logical left shift, `src/include/bignum_template.h`).

The repository ships only the headers, unit tests and benchmarks of the two
kernels; the implementation translation units are not part of the source
tree.  The kernels are therefore modelled from the specification's algorithm
descriptions (spec §4.2 for the subtractor, §4.3 for the shifter), with the
unit tests used to settle the representation of the canonical zero
(`len == 1`, `words[0] == 0`, per `test_sub_to_zero_and_normalize` and the
`is_zero` helper of `test_bignum_sub_mt.c`).

Machine integers are modelled as `Nat` with explicit reduction modulo
`2 ^ 64`; the fixed 32-limb buffer is a `List Nat` of length 32.
-/

namespace BignumSub

/-- `BIGNUM_CAPACITY` (bignum.h, reference sizing N = 32). -/
def BIGNUM_CAPACITY : Nat := 32

/-- One past the largest limb value: `2 ^ 64`. -/
def W : Nat := 2 ^ 64

/-- `capacity_bits = N * 64` (spec §3): the ceiling of representable magnitude. -/
def capacity_bits : Nat := BIGNUM_CAPACITY * 64

/-- The `bignum_t` structure: a fixed buffer of `BIGNUM_CAPACITY` 64-bit
limbs, little-endian, plus a significant-limb count `len`.  In the embedding
`words` is a list that well-formed states keep at length 32 with every entry
below `2 ^ 64`. -/
structure bignum_t where
  words : List Nat
  len : Nat
deriving DecidableEq, Repr

/-- Well-formedness of a `bignum_t` as laid out in C: the fixed buffer holds
exactly `BIGNUM_CAPACITY` limbs and every limb is a 64-bit value. -/
def Wf (x : bignum_t) : Prop :=
  x.words.length = BIGNUM_CAPACITY ∧ ∀ w ∈ x.words, w < W

instance (x : bignum_t) : Decidable (Wf x) := by
  unfold Wf; infer_instance

/-- Little-endian value of a limb list: `Σ l[i] * 2 ^ (64 * i)`. -/
def valLE (l : List Nat) : Nat := l.foldr (fun w acc => w + W * acc) 0

/-- Pad a limb list with high zero limbs up to length `n`. -/
def pad (l : List Nat) (n : Nat) : List Nat := l ++ List.replicate (n - l.length) 0

/-- `value(x) = Σ_{i<len} words[i] * 2^(64 i)` (spec §3). -/
def value (x : bignum_t) : Nat := valLE (x.words.take x.len)

/-- Count of significant limbs of a limb list: highest nonzero index plus
one, `0` for an all-zero list (the normalization measure of both kernels). -/
def normLen : List Nat → Nat
  | [] => 0
  | w :: ws =>
    match normLen ws with
    | 0 => if w = 0 then 0 else 1
    | r + 1 => r + 2

/-- The logical content of the fixed buffer: limbs below `len`, zero above
(spec §3: "all limb slots at index ≥ `length` are treated as logically
zero"), extended to the full `BIGNUM_CAPACITY` limbs. -/
def logicalLimbs (x : bignum_t) : List Nat := pad (x.words.take x.len) BIGNUM_CAPACITY

/-! ## Status enumerations (from the headers) -/

/-- `bignum_sub_status_t` (src/include/bignum_sub.h:54-60). -/
inductive SubStatus where
  | Success
  | NullPtr
  | NegativeResult
  | CapacityExceeded
  | BufferOverlap
deriving DecidableEq, Repr

/-- `bignum_template_status_t` (src/include/bignum_template.h:56-60). -/
inductive TemplateStatus where
  | Success
  | NullArg
  | Overflow
deriving DecidableEq, Repr

/-! ## The subtractor -/

/-- A buffer reference: the base address of a caller-owned `bignum_t`
together with its contents.  Each buffer spans
`sizeof(uint64_t) * BIGNUM_CAPACITY` bytes (bignum_sub.h:71). -/
structure BufRef where
  addr : Nat
  val : bignum_t
deriving DecidableEq, Repr

/-- Modelled from the spec: the Aliasing Guard's half-open byte-range overlap
test (`bignum_sub_ranges_overlap`, spec §4.1: `start1 < end2 ∧ start2 <
end1`), each range spanning `N*8 = 256` bytes; the implementation translation
unit is not in the source tree. -/
def ranges_overlap (p q : Nat) : Bool :=
  decide (p < q + BIGNUM_CAPACITY * 8) && decide (q < p + BIGNUM_CAPACITY * 8)

/-- One borrow-propagation pass of the subtractor (spec §4.2 happy path):
at each limb compute `a[i] - b[i] - borrow_in` with wraparound 64-bit
subtraction, recording whether the step underflowed as `borrow_out ∈ {0,1}`.
Returns the difference limbs and the final borrow. -/
def subLimbs (c : Nat) : List (Nat × Nat) → List Nat × Nat
  | [] => ([], c)
  | (x, y) :: ps =>
    let c' := if x < y + c then 1 else 0
    let rest := subLimbs c' ps
    ((x + (W - y - c)) % W :: rest.1, rest.2)

/-- The magnitude comparison used by check 4 (spec §4.2: "full magnitude
comparison (most-significant limb first, descending)"): limbs are compared
with the more significant limb taking precedence; `bignum_cmp`'s translation
unit is not in the source tree. -/
def cmpLimbs : List (Nat × Nat) → Ordering
  | [] => .eq
  | (x, y) :: ps => (cmpLimbs ps).then (compare x y)

/-- Modelled from the spec: the happy path of `bignum_sub` (spec §4.2;
implementation translation unit not in the source tree).  Iterate limb index
`0 … max(a.len, b.len) − 1` with borrow propagation, then normalize: trim
high zero limbs down to the canonical zero representation (`len == 1`,
`words[0] == 0`, fixed by the unit tests), and zero every limb at index
`≥` the final length. -/
def subCore (a b : bignum_t) : bignum_t :=
  let m := max a.len b.len
  let xs := pad (a.words.take a.len) m
  let ys := pad (b.words.take b.len) m
  let ds := (subLimbs 0 (xs.zip ys)).1
  let k := normLen ds
  { words := pad (ds.take k) BIGNUM_CAPACITY, len := max k 1 }

/-- Modelled from the spec: `bignum_sub(result, a, b)` (spec §4.2,
bignum_sub.h:63-93; the implementation translation unit is not in the source
tree).  Checks in exact precedence: NullPointer, CapacityExceeded,
BufferOverlap, then the NegativeResult check (immediate when
`a.len < b.len`, otherwise by full magnitude comparison); on success the
result buffer receives the normalized difference.  Returns the status and
the post-call contents of the three buffers. -/
def bignum_sub (result a b : Option BufRef) :
    SubStatus × Option BufRef × Option BufRef × Option BufRef :=
  match result, a, b with
  | some r, some pa, some pb =>
    if BIGNUM_CAPACITY < pa.val.len ∨ BIGNUM_CAPACITY < pb.val.len then
      (.CapacityExceeded, some r, some pa, some pb)
    else if ranges_overlap r.addr pa.addr ∨ ranges_overlap r.addr pb.addr ∨
        ranges_overlap pa.addr pb.addr then
      (.BufferOverlap, some r, some pa, some pb)
    else if pa.val.len < pb.val.len then
      (.NegativeResult, some r, some pa, some pb)
    else if cmpLimbs ((pad (pa.val.words.take pa.val.len) pa.val.len).zip
        (pad (pb.val.words.take pb.val.len) pa.val.len)) = .lt then
      (.NegativeResult, some r, some pa, some pb)
    else
      (.Success, some ⟨r.addr, subCore pa.val pb.val⟩, some pa, some pb)
  | _, _, _ => (.NullPtr, result, a, b)

/-! ## The shifter -/

/-- Fuel-based binary bit length: `bitsAux f v` is the number of binary
digits of `v` (zero for `v = 0`), correct whenever `v < 2 ^ f`. -/
def bitsAux : Nat → Nat → Nat
  | 0, _ => 0
  | f + 1, v => if v = 0 then 0 else bitsAux f (v / 2) + 1

/-- The bit position of the most-significant set bit of a value (spec §4.3
step 4), correct for every value representable in the fixed buffer
(`v < 2 ^ capacity_bits`). -/
def msbPos (v : Nat) : Nat := bitsAux capacity_bits v - 1

/-- Word-level part of the shift (spec §4.3 step 5): relocate limbs upward
by `q` positions inside the fixed 32-limb buffer, zero-filling the vacated
low limbs. -/
def wordShiftL (q : Nat) (l : List Nat) : List Nat :=
  (List.replicate q 0 ++ l).take BIGNUM_CAPACITY

/-- Bit-level part of the shift (spec §4.3 step 5): each limb absorbs, as a
low-bit carry-in, the top `r` bits of the limb immediately below it (`p` is
that lower limb, `0` below the lowest), then is left-shifted by `r` modulo
`2 ^ 64`. -/
def bitShiftAux (r : Nat) : Nat → List Nat → List Nat
  | _, [] => []
  | p, x :: xs => (x * 2 ^ r + p / 2 ^ (64 - r)) % W :: bitShiftAux r x xs

/-- The bitwise pass is performed only when `bit_shift > 0` (spec §4.3). -/
def bitShiftL (r : Nat) (l : List Nat) : List Nat :=
  if r = 0 then l else bitShiftAux r 0 l

/-- Modelled from the spec: the core of `bignum_template(num, amount)`
(spec §4.3, bignum_template.h:62-91; the implementation translation unit is
not in the source tree).  `amount == 0` returns Success immediately with no
mutation; a zero-valued `num` is left unchanged (fixed by
`test_shift_zero_number` and `test_empty_len_zero`), overflowing only when
`amount ≥ capacity_bits` ("shifting by `capacity_bits` or more always
overflows", spec §8); otherwise the overflow pre-check compares the
most-significant set bit position plus `amount` against `capacity_bits`
before any limb is written, and the happy path performs the word shift, the
bit shift, and normalizes `len` to (highest nonzero limb index) + 1. -/
def bignum_template_core (num : bignum_t) (amount : Nat) :
    TemplateStatus × bignum_t :=
  if amount = 0 then (.Success, num)
  else
    let v := value num
    if v = 0 then
      if capacity_bits ≤ amount then (.Overflow, num) else (.Success, num)
    else if capacity_bits ≤ msbPos v + amount then (.Overflow, num)
    else
      let l := bitShiftL (amount % 64) (wordShiftL (amount / 64) (logicalLimbs num))
      (.Success, { words := l, len := normLen l })

/-- Modelled from the spec: `bignum_template` with the NullArg check
(spec §4.3 step 1; implementation translation unit not in the source
tree). -/
def bignum_template (num : Option bignum_t) (amount : Nat) :
    TemplateStatus × Option bignum_t :=
  match num with
  | none => (.NullArg, none)
  | some n =>
    let r := bignum_template_core n amount
    (r.1, some r.2)

/-! ## Basic lemmas about `valLE`, `pad` and `normLen` -/

theorem valLE_nil : valLE [] = 0 := rfl

theorem valLE_cons (w : Nat) (l : List Nat) : valLE (w :: l) = w + W * valLE l := rfl

theorem W_pos : 0 < W := by unfold W; positivity

theorem valLE_append (s t : List Nat) :
    valLE (s ++ t) = valLE s + W ^ s.length * valLE t := by
  induction s with
  | nil => simp [valLE_nil]
  | cons w s ih =>
    simp only [List.cons_append, valLE_cons, ih, List.length_cons]
    ring

theorem valLE_replicate (n : Nat) : valLE (List.replicate n 0) = 0 := by
  induction n with
  | zero => rfl
  | succ n ih => simp [List.replicate_succ, valLE_cons, ih]

theorem valLE_pad (l : List Nat) (n : Nat) : valLE (pad l n) = valLE l := by
  simp [pad, valLE_append, valLE_replicate]

theorem pad_length {l : List Nat} {n : Nat} (h : l.length ≤ n) :
    (pad l n).length = n := by
  simp [pad]
  omega

theorem valLE_lt (l : List Nat) (h : ∀ w ∈ l, w < W) : valLE l < W ^ l.length := by
  induction l with
  | nil => simp [valLE_nil]
  | cons w t ih =>
    have hw := h w (by simp)
    have ht := ih (fun x hx => h x (by simp [hx]))
    simp only [valLE_cons, List.length_cons, pow_succ]
    calc w + W * valLE t < W + W * valLE t := by omega
    _ = W * (valLE t + 1) := by ring
    _ ≤ W * W ^ t.length := by
        have : valLE t + 1 ≤ W ^ t.length := ht
        exact Nat.mul_le_mul_left _ this
    _ = W ^ t.length * W := by ring

theorem valLE_split (l : List Nat) (n : Nat) :
    valLE l = valLE (l.take n) + W ^ (l.take n).length * valLE (l.drop n) := by
  conv_lhs => rw [← List.take_append_drop n l]
  exact valLE_append _ _

theorem valLE_eq_zero (l : List Nat) (h : ∀ w ∈ l, w = 0) : valLE l = 0 := by
  induction l with
  | nil => rfl
  | cons w t ih =>
    have := h w (by simp)
    simp [valLE_cons, this, ih (fun x hx => h x (by simp [hx]))]

theorem valLE_take_of_lt {l : List Nat} {k : Nat} (h : valLE l < W ^ k) :
    valLE (l.take k) = valLE l := by
  rcases le_or_lt l.length k with hk | hk
  · rw [List.take_of_length_le hk]
  · have hsplit := valLE_split l k
    have hlen : (l.take k).length = k := by simp [List.length_take]; omega
    rw [hlen] at hsplit
    have hd : valLE (l.drop k) = 0 := by
      by_contra hne
      have h1 : 0 < valLE (l.drop k) := Nat.pos_of_ne_zero hne
      have h2 : W ^ k ≤ W ^ k * valLE (l.drop k) := Nat.le_mul_of_pos_right _ h1
      omega
    rw [hd, mul_zero] at hsplit
    omega

/-! `normLen` facts -/

theorem normLen_cons_zero {w : Nat} {t : List Nat} (h : normLen t = 0) :
    normLen (w :: t) = if w = 0 then 0 else 1 := by
  show (match normLen t with
    | 0 => if w = 0 then 0 else 1
    | r + 1 => r + 2) = _
  rw [h]

theorem normLen_cons_succ {w : Nat} {t : List Nat} {r : Nat} (h : normLen t = r + 1) :
    normLen (w :: t) = r + 2 := by
  show (match normLen t with
    | 0 => if w = 0 then 0 else 1
    | r + 1 => r + 2) = _
  rw [h]

theorem normLen_le (l : List Nat) : normLen l ≤ l.length := by
  induction l with
  | nil => simp [normLen]
  | cons w t ih =>
    rcases h : normLen t with _ | r
    · rw [normLen_cons_zero h]
      simp only [List.length_cons]
      split <;> omega
    · rw [normLen_cons_succ h]
      simp only [List.length_cons]
      omega

theorem take_normLen_append (l : List Nat) :
    l.take (normLen l) ++ List.replicate (l.length - normLen l) 0 = l := by
  induction l with
  | nil => simp [normLen]
  | cons w t ih =>
    rcases h : normLen t with _ | r
    · have ht : List.replicate t.length 0 = t := by
        have := ih
        rw [h] at this
        simpa using this
      rw [normLen_cons_zero h]
      split
      next hw =>
        subst hw
        simpa [List.replicate_succ] using ht
      next hw =>
        simp only [List.take_cons (by omega : 0 < 1), List.length_cons]
        simpa using ht
    · have hle : normLen t ≤ t.length := normLen_le t
      rw [normLen_cons_succ h]
      simp only [List.take_cons (by omega : 0 < r + 2), List.length_cons]
      have h1 : r + 2 - 1 = normLen t := by omega
      have h2 : t.length + 1 - (r + 2) = t.length - normLen t := by omega
      rw [h1, h2, List.cons_append, ih]

theorem valLE_take_normLen (l : List Nat) :
    valLE (l.take (normLen l)) = valLE l := by
  conv_rhs => rw [← take_normLen_append l]
  rw [valLE_append, valLE_replicate]
  omega

theorem normLen_zero_val {l : List Nat} (h : normLen l = 0) : valLE l = 0 := by
  have := valLE_take_normLen l
  rw [h] at this
  simpa [valLE_nil] using this.symm

theorem normLen_getD_ne_zero {l : List Nat} {k : Nat} (h : normLen l = k + 1) :
    l.getD k 0 ≠ 0 := by
  induction l generalizing k with
  | nil => simp [normLen] at h
  | cons w t ih =>
    rcases ht : normLen t with _ | r
    · rw [normLen_cons_zero ht] at h
      split at h
      · omega
      · next hw =>
        have : k = 0 := by omega
        subst this
        simpa using hw
    · rw [normLen_cons_succ ht] at h
      have hk : k = r + 1 := by omega
      subst hk
      simpa using ih (k := r) ht

theorem getD_zero_of_normLen_le {l : List Nat} {i : Nat} (h : normLen l ≤ i) :
    l.getD i 0 = 0 := by
  induction l generalizing i with
  | nil => simp
  | cons w t ih =>
    rcases ht : normLen t with _ | r
    · rw [normLen_cons_zero ht] at h
      cases i with
      | zero =>
        split at h
        · next hw => simpa using hw
        · omega
      | succ i =>
        simpa using ih (by omega)
    · rw [normLen_cons_succ ht] at h
      cases i with
      | zero => omega
      | succ i => simpa using ih (by omega)

/-! ## The borrow-propagation loop -/

theorem subLimbs_length (c : Nat) (ps : List (Nat × Nat)) :
    (subLimbs c ps).1.length = ps.length := by
  induction ps generalizing c with
  | nil => rfl
  | cons p t ih => simp [subLimbs, ih]

theorem subLimbs_lt (c : Nat) (ps : List (Nat × Nat)) :
    ∀ d ∈ (subLimbs c ps).1, d < W := by
  induction ps generalizing c with
  | nil => simp [subLimbs]
  | cons p t ih =>
    intro d hd
    rcases p with ⟨x, y⟩
    simp only [subLimbs, List.mem_cons] at hd
    rcases hd with h | h
    · subst h
      exact Nat.mod_lt _ W_pos
    · exact ih _ d h

theorem subLimbs_borrow_le (c : Nat) (ps : List (Nat × Nat)) (hc : c ≤ 1) :
    (subLimbs c ps).2 ≤ 1 := by
  induction ps generalizing c with
  | nil => simpa [subLimbs]
  | cons p t ih =>
    rcases p with ⟨x, y⟩
    simp only [subLimbs]
    exact ih _ (by split <;> omega)

/-- The loop invariant of the borrow chain (spec §4.2): the produced limbs,
the subtrahend and the incoming borrow add back up to the minuend plus the
final borrow weighted by `W ^ n`. -/
theorem subLimbs_val (c : Nat) (ps : List (Nat × Nat)) (hc : c ≤ 1)
    (hps : ∀ p ∈ ps, p.1 < W ∧ p.2 < W) :
    valLE (subLimbs c ps).1 + valLE (ps.map Prod.snd) + c
      = valLE (ps.map Prod.fst) + W ^ ps.length * (subLimbs c ps).2 := by
  induction ps generalizing c with
  | nil => simp [subLimbs, valLE_nil]
  | cons p t ih =>
    rcases p with ⟨x, y⟩
    obtain ⟨hx, hy⟩ := hps (x, y) (by simp)
    have hyc : y + c ≤ W := by omega
    have hsub : W - y - c = W - (y + c) := by omega
    set c' := if x < y + c then 1 else 0 with hc'
    have hc'le : c' ≤ 1 := by rw [hc']; split <;> omega
    have iht := ih c' hc'le (fun p hp => hps p (by simp [hp]))
    have hdnat : (x + (W - y - c)) % W + y + c = x + W * c' := by
      rw [hsub, hc']
      split
      next hlt => rw [Nat.mod_eq_of_lt (by omega)]; omega
      next hge =>
        have hrw : x + (W - (y + c)) = (x - (y + c)) + W := by omega
        rw [hrw, Nat.add_mod_right, Nat.mod_eq_of_lt (by omega)]
        omega
    simp only [subLimbs, List.map_cons, List.length_cons, valLE_cons]
    rw [← hc']
    have ihW : W * valLE (subLimbs c' t).1 + W * valLE (t.map Prod.snd) + W * c'
        = W * valLE (t.map Prod.fst) + W ^ (t.length + 1) * (subLimbs c' t).2 := by
      have := congrArg (W * ·) iht
      simp only [Nat.mul_add] at this
      calc W * valLE (subLimbs c' t).1 + W * valLE (t.map Prod.snd) + W * c'
          = W * (valLE (subLimbs c' t).1 + valLE (t.map Prod.snd) + c') := by ring
      _ = W * (valLE (t.map Prod.fst) + W ^ t.length * (subLimbs c' t).2) := by rw [iht]
      _ = W * valLE (t.map Prod.fst) + W ^ (t.length + 1) * (subLimbs c' t).2 := by ring
    omega

/-- When no underflow can occur (`valLE b ≤ valLE a`), the loop terminates
with final borrow `0` and computes the exact difference. -/
theorem subLimbs_exact (ps : List (Nat × Nat))
    (hps : ∀ p ∈ ps, p.1 < W ∧ p.2 < W)
    (hge : valLE (ps.map Prod.snd) ≤ valLE (ps.map Prod.fst)) :
    (subLimbs 0 ps).2 = 0 ∧
      valLE (subLimbs 0 ps).1 = valLE (ps.map Prod.fst) - valLE (ps.map Prod.snd) := by
  have hval := subLimbs_val 0 ps (by omega) hps
  have hfb := subLimbs_borrow_le 0 ps (by omega)
  have hdlt : valLE (subLimbs 0 ps).1 < W ^ ps.length := by
    have := valLE_lt (subLimbs 0 ps).1 (subLimbs_lt 0 ps)
    rwa [subLimbs_length] at this
  have halt : valLE (ps.map Prod.fst) < W ^ ps.length := by
    have := valLE_lt (ps.map Prod.fst) (by
      intro w hw
      rcases List.mem_map.mp hw with ⟨p, hp, rfl⟩
      exact (hps p hp).1)
    rwa [List.length_map] at this
  have hfb0 : (subLimbs 0 ps).2 = 0 := by
    rcases Nat.lt_or_ge (subLimbs 0 ps).2 1 with h | h
    · omega
    · exfalso
      have h1 : (subLimbs 0 ps).2 = 1 := by omega
      rw [h1, mul_one] at hval
      omega
  refine ⟨hfb0, ?_⟩
  rw [hfb0, mul_zero] at hval
  omega

/-! ## Base-`W` digit lists are determined by their value -/

theorem valLE_inj {l1 l2 : List Nat} (hlen : l1.length = l2.length)
    (h1 : ∀ w ∈ l1, w < W) (h2 : ∀ w ∈ l2, w < W)
    (hv : valLE l1 = valLE l2) : l1 = l2 := by
  induction l1 generalizing l2 with
  | nil =>
    cases l2 with
    | nil => rfl
    | cons _ _ => simp at hlen
  | cons x t ih =>
    cases l2 with
    | nil => simp at hlen
    | cons y s =>
      have hx := h1 x (by simp)
      have hy := h2 y (by simp)
      simp only [valLE_cons] at hv
      have hhead : x = y := by
        have hx' : (x + W * valLE t) % W = x := by
          rw [Nat.add_mul_mod_self_left]
          exact Nat.mod_eq_of_lt hx
        have hy' : (y + W * valLE s) % W = y := by
          rw [Nat.add_mul_mod_self_left]
          exact Nat.mod_eq_of_lt hy
        rw [← hx', ← hy', hv]
      subst hhead
      have htail : valLE t = valLE s :=
        Nat.eq_of_mul_eq_mul_left W_pos (show W * valLE t = W * valLE s by omega)
      exact congrArg (x :: ·) (ih (by simpa using hlen)
        (fun w hw => h1 w (by simp [hw]))
        (fun w hw => h2 w (by simp [hw])) htail)

/-! ## The magnitude comparison -/

theorem cmpLimbs_cons (x y : Nat) (ps : List (Nat × Nat)) :
    cmpLimbs ((x, y) :: ps) = (cmpLimbs ps).then (compare x y) := rfl

theorem cmpLimbs_eq_compare (xs ys : List Nat) (hlen : xs.length = ys.length)
    (hx : ∀ w ∈ xs, w < W) (hy : ∀ w ∈ ys, w < W) :
    cmpLimbs (xs.zip ys) = compare (valLE xs) (valLE ys) := by
  induction xs generalizing ys with
  | nil =>
    cases ys with
    | nil =>
      show Ordering.eq = compare 0 0
      exact (Nat.compare_eq_eq.mpr rfl).symm
    | cons _ _ => simp at hlen
  | cons x t ih =>
    cases ys with
    | nil => simp at hlen
    | cons y s =>
      have hx0 := hx x (by simp)
      have hy0 := hy y (by simp)
      have hs : ∀ w ∈ s, w < W := fun w hw => hy w (by simp [hw])
      have ht : ∀ w ∈ t, w < W := fun w hw => hx w (by simp [hw])
      have iht := ih s (by simpa using hlen) ht hs
      rw [List.zip_cons_cons, cmpLimbs_cons, iht, valLE_cons, valLE_cons]
      rcases lt_trichotomy (valLE t) (valLE s) with hts | hts | hts
      · rw [Nat.compare_eq_lt.mpr hts]
        have hlt : x + W * valLE t < y + W * valLE s := by
          have h1 : x + W * valLE t < W * (valLE t + 1) := by nlinarith
          have h2 : W * (valLE t + 1) ≤ W * valLE s := Nat.mul_le_mul_left _ (by omega)
          omega
        rw [Nat.compare_eq_lt.mpr hlt]
        rfl
      · rw [hts, Nat.compare_eq_eq.mpr rfl]
        have hcc : compare (x + W * valLE s) (y + W * valLE s) = compare x y := by
          rcases lt_trichotomy x y with h | h | h
          · rw [Nat.compare_eq_lt.mpr h, Nat.compare_eq_lt.mpr (by omega)]
          · subst h
            rw [Nat.compare_eq_eq.mpr rfl, Nat.compare_eq_eq.mpr rfl]
          · rw [Nat.compare_eq_gt.mpr h, Nat.compare_eq_gt.mpr (by omega)]
        rw [hcc]
        rfl
      · rw [Nat.compare_eq_gt.mpr hts]
        have hgt : y + W * valLE s < x + W * valLE t := by
          have h1 : y + W * valLE s < W * (valLE s + 1) := by nlinarith
          have h2 : W * (valLE s + 1) ≤ W * valLE t := Nat.mul_le_mul_left _ (by omega)
          omega
        rw [Nat.compare_eq_gt.mpr hgt]
        rfl

/-! ## Bit length and the most-significant set bit -/

theorem bitsAux_zero (f : Nat) : bitsAux f 0 = 0 := by
  cases f <;> rfl

theorem bitsAux_bounds : ∀ (f v : Nat), 0 < v → v < 2 ^ f →
    2 ^ (bitsAux f v - 1) ≤ v ∧ v < 2 ^ bitsAux f v := by
  intro f
  induction f with
  | zero =>
    intro v h0 hf
    simp only [pow_zero] at hf
    omega
  | succ f ih =>
    intro v h0 hf
    have hne : v ≠ 0 := by omega
    have hstep : bitsAux (f + 1) v = bitsAux f (v / 2) + 1 := by
      simp [bitsAux, hne]
    rcases Nat.lt_or_ge v 2 with hv1 | hv2
    · have hv : v = 1 := by omega
      subst hv
      simp [hstep, bitsAux_zero]
    · have hd0 : 0 < v / 2 := by omega
      have hdf : v / 2 < 2 ^ f := by
        have hp : 2 ^ (f + 1) = 2 ^ f * 2 := by ring
        omega
      obtain ⟨ih1, ih2⟩ := ih (v / 2) hd0 hdf
      have hb : 0 < bitsAux f (v / 2) := by
        by_contra hb
        have : bitsAux f (v / 2) = 0 := by omega
        rw [this] at ih2
        simp at ih2
        omega
      rw [hstep]
      constructor
      · have h1 : 2 ^ (bitsAux f (v / 2) + 1 - 1) = 2 * 2 ^ (bitsAux f (v / 2) - 1) := by
          rw [Nat.add_sub_cancel, ← pow_succ']
          congr 1
          omega
        rw [h1]
        omega
      · have h2 : 2 ^ (bitsAux f (v / 2) + 1) = 2 * 2 ^ bitsAux f (v / 2) := by
          rw [← pow_succ']
        rw [h2]
        omega

theorem msbPos_eq_log2 {v : Nat} (h0 : 0 < v) (hv : v < 2 ^ capacity_bits) :
    msbPos v = Nat.log2 v := by
  obtain ⟨h1, h2⟩ := bitsAux_bounds capacity_bits v h0 hv
  have hle : bitsAux capacity_bits v - 1 ≤ Nat.log2 v :=
    (Nat.le_log2 (by omega)).mpr h1
  have hlt : Nat.log2 v < bitsAux capacity_bits v :=
    (Nat.log2_lt (by omega)).mpr h2
  unfold msbPos
  omega

/-! ## The word-level shift -/

theorem wordShiftL_length (q : Nat) (l : List Nat) (hl : l.length = BIGNUM_CAPACITY) :
    (wordShiftL q l).length = BIGNUM_CAPACITY := by
  simp [wordShiftL, List.length_take, List.length_append, List.length_replicate]
  omega

theorem wordShiftL_lt (q : Nat) (l : List Nat) (h : ∀ w ∈ l, w < W) :
    ∀ w ∈ wordShiftL q l, w < W := by
  intro w hw
  have hmem : w ∈ List.replicate q 0 ++ l := List.take_subset _ _ hw
  rcases List.mem_append.mp hmem with h1 | h2
  · rw [List.eq_of_mem_replicate h1]
    exact W_pos
  · exact h w h2

theorem wordShiftL_val (q : Nat) (l : List Nat) (hq : q ≤ BIGNUM_CAPACITY)
    (hl : l.length = BIGNUM_CAPACITY)
    (hfit : valLE l * W ^ q < W ^ BIGNUM_CAPACITY) :
    valLE (wordShiftL q l) = W ^ q * valLE l := by
  have hsplit : wordShiftL q l = List.replicate q 0 ++ l.take (BIGNUM_CAPACITY - q) := by
    unfold wordShiftL
    conv_lhs =>
      rw [show BIGNUM_CAPACITY = (List.replicate q (0 : Nat)).length + (BIGNUM_CAPACITY - q) by
        simp [List.length_replicate]; omega]
    rw [List.take_append]
  rw [hsplit, valLE_append, valLE_replicate, List.length_replicate]
  have hvl : valLE l < W ^ (BIGNUM_CAPACITY - q) := by
    by_contra hge
    push_neg at hge
    have hmul : W ^ (BIGNUM_CAPACITY - q) * W ^ q ≤ valLE l * W ^ q :=
      Nat.mul_le_mul_right _ hge
    rw [← pow_add] at hmul
    have heq : BIGNUM_CAPACITY - q + q = BIGNUM_CAPACITY := by omega
    rw [heq] at hmul
    omega
  rw [valLE_take_of_lt hvl]
  omega

/-! ## The bit-level shift -/

theorem bitShiftAux_length (r : Nat) (p : Nat) (l : List Nat) :
    (bitShiftAux r p l).length = l.length := by
  induction l generalizing p with
  | nil => rfl
  | cons x xs ih => simp [bitShiftAux, ih]

theorem bitShiftAux_lt (r : Nat) (p : Nat) (l : List Nat) :
    ∀ w ∈ bitShiftAux r p l, w < W := by
  induction l generalizing p with
  | nil => simp [bitShiftAux]
  | cons x xs ih =>
    intro w hw
    simp only [bitShiftAux, List.mem_cons] at hw
    rcases hw with h | h
    · subst h
      exact Nat.mod_lt _ W_pos
    · exact ih x w h

theorem mod_limb_split (a b n : Nat) (ha : a < W) :
    (a + W * b) % W ^ (n + 1) = a + W * (b % W ^ n) := by
  have hb := Nat.div_add_mod b (W ^ n)
  have hR : b % W ^ n < W ^ n := Nat.mod_lt _ (pow_pos W_pos n)
  have h1 : a + W * b = (a + W * (b % W ^ n)) + W ^ (n + 1) * (b / W ^ n) := by
    conv_lhs => rw [← hb]
    ring
  rw [h1, Nat.add_mul_mod_self_left]
  apply Nat.mod_eq_of_lt
  have hpow : W ^ (n + 1) = W * W ^ n := by ring
  nlinarith

theorem bitShiftAux_val (r : Nat) (hr : r < 64) :
    ∀ (l : List Nat) (p : Nat), (∀ w ∈ l, w < W) → p < W →
    valLE (bitShiftAux r p l) = (p / 2 ^ (64 - r) + 2 ^ r * valLE l) % W ^ l.length := by
  intro l
  induction l with
  | nil =>
    intro p _ _
    simp [bitShiftAux, valLE_nil, Nat.mod_one]
  | cons x xs ih =>
    intro p hl hp
    have hx : x < W := hl x (by simp)
    have hxs : ∀ w ∈ xs, w < W := fun w hw => hl w (by simp [hw])
    have hsr : 2 ^ (64 - r) * 2 ^ r = W := by
      rw [← pow_add]
      unfold W
      congr 1
      omega
    have hc : p / 2 ^ (64 - r) < 2 ^ r := by
      apply (Nat.div_lt_iff_lt_mul (pow_pos (by norm_num) _)).mpr
      calc p < W := hp
      _ = 2 ^ r * 2 ^ (64 - r) := by rw [← hsr]; ring
    set c := p / 2 ^ (64 - r) with hcdef
    set X := x / 2 ^ (64 - r) with hXdef
    set Y := x % 2 ^ (64 - r) with hYdef
    have hYlt : Y < 2 ^ (64 - r) := Nat.mod_lt _ (pow_pos (by norm_num) _)
    have hxeq : 2 ^ (64 - r) * X + Y = x := Nat.div_add_mod x (2 ^ (64 - r))
    have hlow : Y * 2 ^ r + c < W := by
      have h1 : Y + 1 ≤ 2 ^ (64 - r) := hYlt
      have h2 : (Y + 1) * 2 ^ r ≤ 2 ^ (64 - r) * 2 ^ r := Nat.mul_le_mul_right _ h1
      rw [hsr, add_mul, one_mul] at h2
      omega
    have hhead : (x * 2 ^ r + c) % W = Y * 2 ^ r + c := by
      have hdec : x * 2 ^ r + c = W * X + (Y * 2 ^ r + c) := by
        conv_lhs => rw [← hxeq]
        rw [← hsr]
        ring
      rw [hdec, Nat.mul_add_mod]
      exact Nat.mod_eq_of_lt hlow
    have hXW : X < W := by
      have : X ≤ x := Nat.div_le_self _ _
      omega
    have iht := ih x hxs hx
    simp only [bitShiftAux, valLE_cons, List.length_cons]
    rw [hhead, iht]
    have harg : c + 2 ^ r * (x + W * valLE xs) = (Y * 2 ^ r + c) + W * (X + 2 ^ r * valLE xs) := by
      conv_lhs => rw [← hxeq]
      rw [← hsr]
      ring
    rw [← mod_limb_split (Y * 2 ^ r + c) (X + 2 ^ r * valLE xs) xs.length hlow, ← harg]

theorem bitShiftL_length (r : Nat) (l : List Nat) :
    (bitShiftL r l).length = l.length := by
  unfold bitShiftL
  split
  · rfl
  · exact bitShiftAux_length r 0 l

theorem bitShiftL_lt (r : Nat) (l : List Nat) (h : ∀ w ∈ l, w < W) :
    ∀ w ∈ bitShiftL r l, w < W := by
  unfold bitShiftL
  split
  · exact h
  · exact bitShiftAux_lt r 0 l

theorem bitShiftL_val (r : Nat) (l : List Nat) (hr : r < 64)
    (h : ∀ w ∈ l, w < W) (hfit : 2 ^ r * valLE l < W ^ l.length) :
    valLE (bitShiftL r l) = 2 ^ r * valLE l := by
  unfold bitShiftL
  split
  next h0 =>
    subst h0
    simp
  next h0 =>
    cases l with
    | nil =>
      simp [bitShiftAux, valLE_nil]
    | cons x xs =>
      rw [bitShiftAux_val r hr (x :: xs) 0 h W_pos]
      simp only [Nat.zero_div, Nat.zero_add]
      exact Nat.mod_eq_of_lt hfit

/-! ## Putting the shifter together -/

theorem W_pow_cap : W ^ BIGNUM_CAPACITY = 2 ^ capacity_bits := by
  unfold W capacity_bits BIGNUM_CAPACITY
  rw [show (32 : Nat) * 64 = 64 * 32 by norm_num, pow_mul]

theorem logicalLimbs_length {x : bignum_t} (hw : Wf x) :
    (logicalLimbs x).length = BIGNUM_CAPACITY := by
  unfold logicalLimbs
  apply pad_length
  rw [List.length_take, hw.1]
  omega

theorem logicalLimbs_lt {x : bignum_t} (hw : Wf x) :
    ∀ w ∈ logicalLimbs x, w < W := by
  intro w hmem
  rcases List.mem_append.mp hmem with h1 | h2
  · exact hw.2 w (List.take_subset _ _ h1)
  · rw [List.eq_of_mem_replicate h2]
    exact W_pos

theorem valLE_logicalLimbs (x : bignum_t) : valLE (logicalLimbs x) = value x :=
  valLE_pad _ _

theorem value_lt {x : bignum_t} (hw : Wf x) : value x < 2 ^ capacity_bits := by
  rw [← W_pow_cap]
  have h1 := valLE_lt (x.words.take x.len) (fun w hmem => hw.2 w (List.take_subset _ _ hmem))
  have h2 : (x.words.take x.len).length ≤ BIGNUM_CAPACITY := by
    rw [List.length_take, hw.1]
    omega
  have h3 : W ^ (x.words.take x.len).length ≤ W ^ BIGNUM_CAPACITY :=
    Nat.pow_le_pow_right W_pos h2
  unfold value
  omega

/-- `value` of a normalized wrapper. -/
theorem value_mk_norm (l : List Nat) : value ⟨l, normLen l⟩ = valLE l := by
  unfold value
  exact valLE_take_normLen l

theorem msbPos_zero : msbPos 0 = 0 := by
  simp [msbPos, bitsAux_zero]

/-- The success path of the shifter: for a nonzero value that passes the
overflow pre-check, the returned buffer holds the limbs of
`value * 2 ^ amount` with normalized length. -/
theorem template_core_success {num : bignum_t} {amount : Nat} (hw : Wf num)
    (hv : value num ≠ 0) (ha : amount ≠ 0)
    (hfit : msbPos (value num) + amount < capacity_bits) :
    ∃ l, bignum_template_core num amount = (.Success, ⟨l, normLen l⟩) ∧
      l.length = BIGNUM_CAPACITY ∧ (∀ w ∈ l, w < W) ∧
      valLE l = value num * 2 ^ amount := by
  have h0 : 0 < value num := Nat.pos_of_ne_zero hv
  have hvlt : value num < 2 ^ capacity_bits := value_lt hw
  have hlog : msbPos (value num) = Nat.log2 (value num) := msbPos_eq_log2 h0 hvlt
  have hself : value num < 2 ^ (Nat.log2 (value num) + 1) := Nat.lt_log2_self
  have hfit2 : value num * 2 ^ amount < W ^ BIGNUM_CAPACITY := by
    rw [W_pow_cap]
    calc value num * 2 ^ amount
        < 2 ^ (Nat.log2 (value num) + 1) * 2 ^ amount :=
          (Nat.mul_lt_mul_right (pow_pos (by norm_num) _)).mpr hself
    _ = 2 ^ (Nat.log2 (value num) + 1 + amount) := by rw [← pow_add]
    _ ≤ 2 ^ capacity_bits := Nat.pow_le_pow_right (by norm_num) (by omega)
  have hcap2048 : capacity_bits = 2048 := by norm_num [capacity_bits, BIGNUM_CAPACITY]
  have hamt : amount < 2048 := by omega
  have hq : amount / 64 ≤ BIGNUM_CAPACITY := by
    unfold BIGNUM_CAPACITY
    omega
  have hL := logicalLimbs_length hw
  have hLlt := logicalLimbs_lt hw
  have hLval := valLE_logicalLimbs num
  have hWq : W ^ (amount / 64) ≤ 2 ^ amount := by
    unfold W
    rw [← pow_mul]
    exact Nat.pow_le_pow_right (by norm_num) (by omega)
  have hwfit : valLE (logicalLimbs num) * W ^ (amount / 64) < W ^ BIGNUM_CAPACITY := by
    rw [hLval]
    calc value num * W ^ (amount / 64) ≤ value num * 2 ^ amount :=
      Nat.mul_le_mul_left _ hWq
    _ < W ^ BIGNUM_CAPACITY := hfit2
  have hwval : valLE (wordShiftL (amount / 64) (logicalLimbs num))
      = W ^ (amount / 64) * value num := by
    rw [wordShiftL_val _ _ hq hL hwfit, hLval]
  have hwlen := wordShiftL_length (amount / 64) (logicalLimbs num) hL
  have hwlt := wordShiftL_lt (amount / 64) (logicalLimbs num) hLlt
  have hsplitamt : 2 ^ (amount % 64) * (W ^ (amount / 64) * value num)
      = value num * 2 ^ amount := by
    unfold W
    rw [← pow_mul, ← mul_assoc, ← pow_add]
    rw [show amount % 64 + 64 * (amount / 64) = amount by omega]
    ring
  have hbfit : 2 ^ (amount % 64) * valLE (wordShiftL (amount / 64) (logicalLimbs num))
      < W ^ (wordShiftL (amount / 64) (logicalLimbs num)).length := by
    rw [hwval, hwlen, hsplitamt]
    exact hfit2
  have hbval : valLE (bitShiftL (amount % 64) (wordShiftL (amount / 64) (logicalLimbs num)))
      = value num * 2 ^ amount := by
    rw [bitShiftL_val _ _ (by omega) hwlt hbfit, hwval, hsplitamt]
  refine ⟨bitShiftL (amount % 64) (wordShiftL (amount / 64) (logicalLimbs num)), ?_, ?_, ?_, hbval⟩
  · simp only [bignum_template_core]
    rw [if_neg ha, if_neg hv, if_neg (not_le.mpr hfit)]
  · rw [bitShiftL_length, hwlen]
  · exact bitShiftL_lt _ _ hwlt

/-- The shifter either succeeds, or reports Overflow with `num` untouched. -/
theorem template_core_cases (num : bignum_t) (amount : Nat) :
    (bignum_template_core num amount).1 = .Success ∨
      ((bignum_template_core num amount).1 = .Overflow ∧
        (bignum_template_core num amount).2 = num) := by
  simp only [bignum_template_core]
  by_cases h0 : amount = 0
  · simp [h0]
  · by_cases hz : value num = 0
    · by_cases hc : capacity_bits ≤ amount
      · simp [h0, hz, hc]
      · simp [h0, hz, hc]
    · by_cases hm : capacity_bits ≤ msbPos (value num) + amount
      · simp [h0, hz, hm]
      · simp [h0, hz, hm]

/-- On any non-Success outcome the shifter leaves `num` untouched. -/
theorem template_core_frame (num : bignum_t) (amount : Nat)
    (h : (bignum_template_core num amount).1 ≠ .Success) :
    (bignum_template_core num amount).2 = num := by
  rcases template_core_cases num amount with hs | ⟨_, h2⟩
  · exact absurd hs h
  · exact h2

/-! ## Putting the subtractor together -/

theorem valLE_zero_all {l : List Nat} (h : valLE l = 0) : ∀ w ∈ l, w = 0 := by
  induction l with
  | nil => simp
  | cons x t ih =>
    rw [valLE_cons] at h
    have hx : x = 0 := by omega
    have ht : valLE t = 0 := by
      have := W_pos
      nlinarith
    intro w hw
    rcases List.mem_cons.mp hw with h1 | h2
    · omega
    · exact ih ht w h2

theorem normLen_eq_zero_of_all_zero {l : List Nat} (h : ∀ w ∈ l, w = 0) :
    normLen l = 0 := by
  induction l with
  | nil => rfl
  | cons x t ih =>
    have ht : normLen t = 0 := ih (fun w hw => h w (by simp [hw]))
    rw [normLen_cons_zero ht, if_pos (h x (by simp))]

theorem getD_replicate_zero (n i : Nat) : (List.replicate n (0 : Nat)).getD i 0 = 0 := by
  induction n generalizing i with
  | zero => simp
  | succ n ih =>
    cases i with
    | zero => simp [List.replicate_succ]
    | succ i => simp [List.replicate_succ, ih i]

theorem getD_take {l : List Nat} {k i : Nat} (h : i < k) :
    (l.take k).getD i 0 = l.getD i 0 := by
  rw [List.getD_eq_getElem?_getD, List.getD_eq_getElem?_getD, List.getElem?_take, if_pos h]

/-- Full characterization of the subtractor's happy-path output (spec §4.2):
exact difference, fixed buffer length, 64-bit limbs, length in `[1, N]`,
nonzero top limb unless the difference is zero (in which case the canonical
zero of length 1 is produced), and a zeroed tail. -/
theorem subCore_spec {a b : bignum_t} (hwa : Wf a) (hwb : Wf b)
    (hla : a.len ≤ BIGNUM_CAPACITY) (hlb : b.len ≤ BIGNUM_CAPACITY)
    (hge : value b ≤ value a) :
    value (subCore a b) = value a - value b ∧
    (subCore a b).words.length = BIGNUM_CAPACITY ∧
    (∀ w ∈ (subCore a b).words, w < W) ∧
    1 ≤ (subCore a b).len ∧ (subCore a b).len ≤ BIGNUM_CAPACITY ∧
    (value a ≠ value b → (subCore a b).words.getD ((subCore a b).len - 1) 0 ≠ 0) ∧
    (value a = value b → (subCore a b).len = 1) ∧
    (∀ i, (subCore a b).len ≤ i → (subCore a b).words.getD i 0 = 0) := by
  have hta : (a.words.take a.len).length = a.len := by
    rw [List.length_take, hwa.1]
    omega
  have htb : (b.words.take b.len).length = b.len := by
    rw [List.length_take, hwb.1]
    omega
  set m := max a.len b.len with hm
  set xs := pad (a.words.take a.len) m with hxs
  set ys := pad (b.words.take b.len) m with hys
  have hxlen : xs.length = m := by
    rw [hxs, pad, List.length_append, List.length_replicate, hta]
    omega
  have hylen : ys.length = m := by
    rw [hys, pad, List.length_append, List.length_replicate, htb]
    omega
  have hxlt : ∀ w ∈ xs, w < W := by
    intro w hw
    rcases List.mem_append.mp hw with h1 | h2
    · exact hwa.2 w (List.take_subset _ _ h1)
    · rw [List.eq_of_mem_replicate h2]
      exact W_pos
  have hylt : ∀ w ∈ ys, w < W := by
    intro w hw
    rcases List.mem_append.mp hw with h1 | h2
    · exact hwb.2 w (List.take_subset _ _ h1)
    · rw [List.eq_of_mem_replicate h2]
      exact W_pos
  have hxval : valLE xs = value a := valLE_pad _ _
  have hyval : valLE ys = value b := valLE_pad _ _
  have hmapf : (xs.zip ys).map Prod.fst = xs :=
    List.map_fst_zip xs ys (by omega)
  have hmaps : (xs.zip ys).map Prod.snd = ys :=
    List.map_snd_zip xs ys (by omega)
  have hzlen : (xs.zip ys).length = m := by
    rw [List.length_zip]
    omega
  have hps : ∀ p ∈ xs.zip ys, p.1 < W ∧ p.2 < W := by
    intro p hp
    rcases p with ⟨u, v⟩
    obtain ⟨hu, hv⟩ := List.of_mem_zip hp
    exact ⟨hxlt u hu, hylt v hv⟩
  obtain ⟨hfb, hdval⟩ := subLimbs_exact (xs.zip ys) hps (by rw [hmapf, hmaps, hxval, hyval]; exact hge)
  set ds := (subLimbs 0 (xs.zip ys)).1 with hds
  rw [hmapf, hmaps, hxval, hyval] at hdval
  have hdlen : ds.length = m := by
    rw [hds, subLimbs_length, hzlen]
  have hdlt : ∀ d ∈ ds, d < W := subLimbs_lt 0 (xs.zip ys)
  set k := normLen ds with hk
  have hkm : k ≤ m := by
    rw [hk, ← hdlen]
    exact normLen_le ds
  have hres : subCore a b = { words := pad (ds.take k) BIGNUM_CAPACITY, len := max k 1 } := by
    rfl
  have htakelen : (ds.take k).length = k := by
    rw [List.length_take]
    omega
  have hwlen : (pad (ds.take k) BIGNUM_CAPACITY).length = BIGNUM_CAPACITY := by
    apply pad_length
    rw [htakelen]
    omega
  have hwordlt : ∀ w ∈ pad (ds.take k) BIGNUM_CAPACITY, w < W := by
    intro w hw
    rcases List.mem_append.mp hw with h1 | h2
    · exact hdlt w (List.take_subset _ _ h1)
    · rw [List.eq_of_mem_replicate h2]
      exact W_pos
  have hvalue : value (subCore a b) = value a - value b := by
    rw [hres]
    have hunf : value { words := pad (ds.take k) BIGNUM_CAPACITY, len := max k 1 }
        = valLE ((pad (ds.take k) BIGNUM_CAPACITY).take (max k 1)) := rfl
    rw [hunf]
    rcases Nat.eq_zero_or_pos k with hk0 | hkpos
    · have hds0 : valLE ds = 0 := normLen_zero_val (by rw [← hk]; exact hk0)
      rw [hk0]
      simp only [List.take_zero, pad, List.nil_append, List.length_nil, Nat.sub_zero]
      rw [List.take_replicate, valLE_replicate]
      omega
    · have hmax : max k 1 = k := by omega
      rw [hmax]
      have htl : (pad (ds.take k) BIGNUM_CAPACITY).take k = ds.take k := by
        unfold pad
        rw [htakelen]
        have h0 := List.take_left (ds.take k)
          (List.replicate (BIGNUM_CAPACITY - k) (0 : Nat))
        rwa [htakelen] at h0
      rw [htl, hk, valLE_take_normLen]
      omega
  refine ⟨hvalue, by rw [hres]; exact hwlen, by rw [hres]; exact hwordlt, ?_, ?_, ?_, ?_, ?_⟩
  · rw [hres]
    simp only
    omega
  · rw [hres]
    simp only
    unfold BIGNUM_CAPACITY at *
    omega
  · intro hne
    rw [hres]
    simp only
    have hd0 : valLE ds ≠ 0 := by
      rw [hdval]
      omega
    have hkpos : k ≠ 0 := by
      intro hk0
      exact hd0 (normLen_zero_val (by rw [← hk]; exact hk0))
    obtain ⟨j, hj⟩ : ∃ j, k = j + 1 := ⟨k - 1, by omega⟩
    have hmax : max k 1 - 1 = j := by omega
    rw [hmax]
    have htop : ds.getD j 0 ≠ 0 := normLen_getD_ne_zero (by rw [← hk, hj])
    have hjlt : j < (ds.take k).length := by omega
    rw [pad, List.getD_append _ _ _ _ hjlt, getD_take (by omega)]
    exact htop
  · intro heq
    rw [hres]
    simp only
    have hd0 : valLE ds = 0 := by omega
    have hk0 : k = 0 := by
      rw [hk]
      exact normLen_eq_zero_of_all_zero (valLE_zero_all hd0)
    omega
  · intro i hi
    rw [hres] at hi ⊢
    simp only at hi ⊢
    rcases Nat.lt_or_ge i BIGNUM_CAPACITY with hlt | hge'
    · have hik : (ds.take k).length ≤ i := by
        rw [htakelen]
        omega
      rw [pad, List.getD_append_right _ _ _ _ hik]
      exact getD_replicate_zero _ _
    · have : (pad (ds.take k) BIGNUM_CAPACITY).length ≤ i := by omega
      rw [List.getD_eq_getElem?_getD, List.getElem?_eq_none (by omega)]
      rfl

/-- The normalized-form invariant of the representation (spec §3): if
`length > 0`, `words[length-1] ≠ 0`. -/
def Normalized (x : bignum_t) : Prop :=
  0 < x.len → x.words.getD (x.len - 1) 0 ≠ 0

instance (x : bignum_t) : Decidable (Normalized x) := by
  unfold Normalized; infer_instance

/-- A normalized nonempty value is at least `W ^ (len - 1)`. -/
theorem value_lower {x : bignum_t} (hw : Wf x) (hpos : 0 < x.len)
    (hlen : x.len ≤ BIGNUM_CAPACITY) (hnorm : Normalized x) :
    W ^ (x.len - 1) ≤ value x := by
  set t := x.words.take x.len with ht
  have htlen : t.length = x.len := by
    rw [ht, List.length_take, hw.1]
    omega
  have hsplit := valLE_split t (x.len - 1)
  have htake : (t.take (x.len - 1)).length = x.len - 1 := by
    rw [List.length_take]
    omega
  have hlt1 : x.len - 1 < t.length := by omega
  have hdrop : t.drop (x.len - 1) = t.getD (x.len - 1) 0 :: t.drop x.len := by
    have h1 := List.drop_eq_getElem_cons hlt1
    have h2 : x.len - 1 + 1 = x.len := by omega
    rw [h2] at h1
    rw [h1]
    congr 1
    rw [List.getD_eq_getElem?_getD, List.getElem?_eq_getElem hlt1]
    rfl
  have hdrop2 : t.drop x.len = [] := by
    apply List.drop_eq_nil_of_le
    omega
  have hgetD : t.getD (x.len - 1) 0 = x.words.getD (x.len - 1) 0 := by
    rw [ht, getD_take (by omega)]
  have htop : 1 ≤ t.getD (x.len - 1) 0 := by
    have := hnorm hpos
    rw [hgetD]
    omega
  have hvd : valLE (t.drop (x.len - 1)) = t.getD (x.len - 1) 0 := by
    rw [hdrop, hdrop2, valLE_cons, valLE_nil]
    ring
  rw [htake, hvd] at hsplit
  have : W ^ (x.len - 1) * 1 ≤ W ^ (x.len - 1) * t.getD (x.len - 1) 0 :=
    Nat.mul_le_mul_left _ htop
  unfold value
  rw [← ht]
  omega

/-- For normalized operands, `value b ≤ value a` forces `b.len ≤ a.len`. -/
theorem len_le_of_value_le {a b : bignum_t} (hwa : Wf a) (hwb : Wf b)
    (hla : a.len ≤ BIGNUM_CAPACITY) (hlb : b.len ≤ BIGNUM_CAPACITY)
    (hnb : Normalized b) (hge : value b ≤ value a) : b.len ≤ a.len := by
  by_contra hgt
  push_neg at hgt
  have hbpos : 0 < b.len := by omega
  have hlow : W ^ (b.len - 1) ≤ value b := value_lower hwb hbpos hlb hnb
  have hup : value a < W ^ a.len := by
    have h1 := valLE_lt (a.words.take a.len) (fun w hw => hwa.2 w (List.take_subset _ _ hw))
    have h2 : (a.words.take a.len).length = a.len := by
      rw [List.length_take, hwa.1]
      omega
    rw [h2] at h1
    exact h1
  have hpow : W ^ a.len ≤ W ^ (b.len - 1) :=
    Nat.pow_le_pow_right W_pos (by omega)
  omega

/-- The comparison performed at check 4 equals the comparison of values. -/
theorem sub_cmp_eq {a b : bignum_t} (hwa : Wf a) (hwb : Wf b)
    (hla : a.len ≤ BIGNUM_CAPACITY) (hlb : b.len ≤ BIGNUM_CAPACITY)
    (hlen : b.len ≤ a.len) :
    cmpLimbs ((pad (a.words.take a.len) a.len).zip (pad (b.words.take b.len) a.len))
      = compare (value a) (value b) := by
  have hta : (a.words.take a.len).length = a.len := by
    rw [List.length_take, hwa.1]
    omega
  have htb : (b.words.take b.len).length = b.len := by
    rw [List.length_take, hwb.1]
    omega
  have hxlen : (pad (a.words.take a.len) a.len).length = a.len := by
    apply pad_length
    omega
  have hylen : (pad (b.words.take b.len) a.len).length = a.len := by
    apply pad_length
    omega
  have hxlt : ∀ w ∈ pad (a.words.take a.len) a.len, w < W := by
    intro w hw
    rcases List.mem_append.mp hw with h1 | h2
    · exact hwa.2 w (List.take_subset _ _ h1)
    · rw [List.eq_of_mem_replicate h2]
      exact W_pos
  have hylt : ∀ w ∈ pad (b.words.take b.len) a.len, w < W := by
    intro w hw
    rcases List.mem_append.mp hw with h1 | h2
    · exact hwb.2 w (List.take_subset _ _ h1)
    · rw [List.eq_of_mem_replicate h2]
      exact W_pos
  rw [cmpLimbs_eq_compare _ _ (by omega) hxlt hylt, valLE_pad, valLE_pad]
  rfl

/-- The subtractor's Success branch, reached exactly when all checks pass. -/
theorem bignum_sub_success_eq {r pa pb : BufRef}
    (hwa : Wf pa.val) (hwb : Wf pb.val)
    (hla : pa.val.len ≤ BIGNUM_CAPACITY) (hlb : pb.val.len ≤ BIGNUM_CAPACITY)
    (hov1 : ranges_overlap r.addr pa.addr = false)
    (hov2 : ranges_overlap r.addr pb.addr = false)
    (hov3 : ranges_overlap pa.addr pb.addr = false)
    (hlen : pb.val.len ≤ pa.val.len)
    (hge : value pb.val ≤ value pa.val) :
    bignum_sub (some r) (some pa) (some pb)
      = (.Success, some ⟨r.addr, subCore pa.val pb.val⟩, some pa, some pb) := by
  simp only [bignum_sub]
  rw [if_neg (by omega)]
  rw [if_neg (show ¬(ranges_overlap r.addr pa.addr = true ∨
    ranges_overlap r.addr pb.addr = true ∨ ranges_overlap pa.addr pb.addr = true) by
      simp [hov1, hov2, hov3])]
  rw [if_neg (show ¬ pa.val.len < pb.val.len by omega)]
  rw [sub_cmp_eq hwa hwb hla hlb hlen]
  rw [if_neg (show ¬ compare (value pa.val) (value pb.val) = Ordering.lt by
    rw [Nat.compare_eq_lt]
    omega)]

/-! ## Shifter status characterization -/

theorem template_core_overflow_iff (num : bignum_t) (amount : Nat) :
    (bignum_template_core num amount).1 = .Overflow ↔
      (amount ≠ 0 ∧ ((value num = 0 ∧ capacity_bits ≤ amount) ∨
        (value num ≠ 0 ∧ capacity_bits ≤ msbPos (value num) + amount))) := by
  simp only [bignum_template_core]
  by_cases h0 : amount = 0
  · simp [h0]
  · by_cases hz : value num = 0
    · by_cases hc : capacity_bits ≤ amount
      · simp [h0, hz, hc]
      · simp [h0, hz, hc]
    · by_cases hm : capacity_bits ≤ msbPos (value num) + amount
      · simp [h0, hz, hm]
      · simp [h0, hz, hm]

theorem template_core_zero_frame {num : bignum_t} (amount : Nat)
    (hv : value num = 0) : (bignum_template_core num amount).2 = num := by
  simp only [bignum_template_core]
  by_cases h0 : amount = 0
  · simp [h0]
  · by_cases hc : capacity_bits ≤ amount
    · simp [h0, hv, hc]
    · simp [h0, hv, hc]

/-- `log2 (v * 2 ^ k) = log2 v + k` for `v ≠ 0`. -/
theorem log2_mul_pow {v k : Nat} (hv : v ≠ 0) :
    Nat.log2 (v * 2 ^ k) = Nat.log2 v + k := by
  have hne : v * 2 ^ k ≠ 0 := by positivity
  have hlow : 2 ^ (Nat.log2 v + k) ≤ v * 2 ^ k := by
    rw [pow_add]
    exact Nat.mul_le_mul_right _ (Nat.log2_self_le hv)
  have hhigh : v * 2 ^ k < 2 ^ (Nat.log2 v + k + 1) := by
    have h1 : v < 2 ^ (Nat.log2 v + 1) := Nat.lt_log2_self
    calc v * 2 ^ k < 2 ^ (Nat.log2 v + 1) * 2 ^ k :=
      (Nat.mul_lt_mul_right (pow_pos (by norm_num) _)).mpr h1
    _ = 2 ^ (Nat.log2 v + k + 1) := by
      rw [← pow_add]
      congr 1
      omega
  have hle : Nat.log2 v + k ≤ Nat.log2 (v * 2 ^ k) := (Nat.le_log2 hne).mpr hlow
  have hlt : Nat.log2 (v * 2 ^ k) < Nat.log2 v + k + 1 := (Nat.log2_lt hne).mpr hhigh
  omega

/-- On the Success path with nonzero value and nonzero amount, the overflow
pre-check passed. -/
theorem template_core_success_bound {num : bignum_t} {amount : Nat}
    (hv : value num ≠ 0) (ha : amount ≠ 0)
    (hs : (bignum_template_core num amount).1 = .Success) :
    msbPos (value num) + amount < capacity_bits := by
  by_contra hge
  push_neg at hge
  have := (template_core_overflow_iff num amount).mpr ⟨ha, Or.inr ⟨hv, hge⟩⟩
  rw [hs] at this
  exact TemplateStatus.noConfusion this

theorem template_core_zero_amount (num : bignum_t) :
    bignum_template_core num 0 = (.Success, num) := by
  simp [bignum_template_core]

/-! ## Claim theorems for the shifter -/

/-- C8: for every `num`, `shift_left(num, 0)` is a no-op identity: it
returns Success immediately and `num` is bit-identical before and after —
no limb, including tail limbs past `num.len`, is written, and no
normalization is applied even if `num` is non-normalized. -/
theorem C8_shift_zero_identity (num : bignum_t) :
    bignum_template_core num 0 = (.Success, num) :=
  template_core_zero_amount num

/-- C2: for every `num` (any value representable within capacity) and
`amount`, `shift_left` returns Overflow exactly when the bit position of
`num`'s most-significant set bit plus `amount` is at least `capacity_bits`
(2048), and on the Overflow path `num` is identical to its pre-call state
(length and all limb slots unchanged) — `num` is mutated only on Success. -/
theorem C2_shift_overflow_iff_and_frame (num : bignum_t) (amount : Nat)
    (hv : value num < 2 ^ capacity_bits) :
    (((bignum_template_core num amount).1 = .Overflow) ↔
      capacity_bits ≤ msbPos (value num) + amount) ∧
    ((bignum_template_core num amount).1 = .Overflow →
      (bignum_template_core num amount).2 = num) := by
  constructor
  · rw [template_core_overflow_iff]
    constructor
    · rintro ⟨ha, h | h⟩
      · rw [h.1, msbPos_zero]
        omega
      · exact h.2
    · intro hge
      have hcp : capacity_bits = 2048 := by norm_num [capacity_bits, BIGNUM_CAPACITY]
      by_cases hz : value num = 0
      · rw [hz, msbPos_zero] at hge
        exact ⟨by omega, Or.inl ⟨hz, by omega⟩⟩
      · have hbound : Nat.log2 (value num) < capacity_bits := (Nat.log2_lt hz).mpr hv
        have hlog : msbPos (value num) = Nat.log2 (value num) :=
          msbPos_eq_log2 (Nat.pos_of_ne_zero hz) hv
        exact ⟨by omega, Or.inr ⟨hz, hge⟩⟩
  · intro ho
    exact template_core_frame num amount (by simp [ho])

set_option maxRecDepth 100000 in
/-- Witness for C2 at a concrete input. -/
theorem C2_shift_overflow_iff_and_frame_witness :
    value ⟨List.replicate 32 0, 0⟩ < 2 ^ capacity_bits ∧
    ((((bignum_template_core ⟨List.replicate 32 0, 0⟩ 2048).1 = .Overflow) ↔
      capacity_bits ≤ msbPos (value ⟨List.replicate 32 0, 0⟩) + 2048) ∧
     ((bignum_template_core ⟨List.replicate 32 0, 0⟩ 2048).1 = .Overflow →
      (bignum_template_core ⟨List.replicate 32 0, 0⟩ 2048).2 = ⟨List.replicate 32 0, 0⟩)) :=
  ⟨by decide, C2_shift_overflow_iff_and_frame ⟨List.replicate 32 0, 0⟩ 2048 (by decide)⟩

set_option maxRecDepth 100000 in
/-- C6: shifting the value 1 left by `capacity_bits − 1 = 2047` returns
Success and sets exactly the top bit of the top limb (`words[31] = 2 ^ 63`,
all other limbs zero, `len = 32`); and for every `num` (including a
zero-valued one), shifting by `capacity_bits` (2048) or more returns
Overflow and leaves `num` unchanged. -/
theorem C6_boundary_shifts :
    bignum_template_core ⟨1 :: List.replicate 31 0, 1⟩ 2047
      = (.Success, ⟨List.replicate 31 0 ++ [2 ^ 63], 32⟩) ∧
    ∀ (num : bignum_t) (amount : Nat), capacity_bits ≤ amount →
      (bignum_template_core num amount).1 = .Overflow ∧
      (bignum_template_core num amount).2 = num := by
  constructor
  · decide
  · intro num amount hcap
    have ha : amount ≠ 0 := by
      have : 0 < capacity_bits := by norm_num [capacity_bits, BIGNUM_CAPACITY]
      omega
    have ho : (bignum_template_core num amount).1 = .Overflow := by
      apply (template_core_overflow_iff num amount).mpr
      by_cases hz : value num = 0
      · exact ⟨ha, Or.inl ⟨hz, hcap⟩⟩
      · exact ⟨ha, Or.inr ⟨hz, by omega⟩⟩
    exact ⟨ho, template_core_frame num amount (by simp [ho])⟩

set_option maxRecDepth 100000 in
/-- Witness for C6's universally quantified overflow part, exercised at a
zero-valued `num` and `amount = capacity_bits`. -/
theorem C6_boundary_shifts_witness :
    capacity_bits ≤ 2048 ∧
    ((bignum_template_core ⟨List.replicate 32 0, 1⟩ 2048).1 = .Overflow ∧
     (bignum_template_core ⟨List.replicate 32 0, 1⟩ 2048).2 = ⟨List.replicate 32 0, 1⟩) :=
  ⟨by decide, C6_boundary_shifts.2 ⟨List.replicate 32 0, 1⟩ 2048 (by decide)⟩

/-- C5: for every well-formed `num` and every pair of amounts `k1, k2`:
shifting by `k1` and then by `k2` yields the same final buffer as the single
shift by `k1 + k2` whenever both component shifts return Success; and
whenever either component shift returns Overflow, the single combined call
also returns Overflow. -/
theorem C5_shift_associativity (num : bignum_t) (k1 k2 : Nat) (hw : Wf num) :
    (((bignum_template_core num k1).1 = .Success ∧
      (bignum_template_core (bignum_template_core num k1).2 k2).1 = .Success) →
      (bignum_template_core (bignum_template_core num k1).2 k2).2
        = (bignum_template_core num (k1 + k2)).2) ∧
    (((bignum_template_core num k1).1 = .Overflow ∨
      (bignum_template_core (bignum_template_core num k1).2 k2).1 = .Overflow) →
      (bignum_template_core num (k1 + k2)).1 = .Overflow) := by
  have hcp : capacity_bits = 2048 := by norm_num [capacity_bits, BIGNUM_CAPACITY]
  by_cases hk1 : k1 = 0
  · subst hk1
    simp [template_core_zero_amount]
  by_cases hk2 : k2 = 0
  · subst hk2
    simp [template_core_zero_amount]
  by_cases hz : value num = 0
  · have hf1 : (bignum_template_core num k1).2 = num := template_core_zero_frame k1 hz
    rw [hf1]
    constructor
    · intro _
      rw [template_core_zero_frame k2 hz, template_core_zero_frame (k1 + k2) hz]
    · rintro (h | h)
      · obtain ⟨-, hor⟩ := (template_core_overflow_iff num k1).mp h
        rcases hor with ⟨-, hc⟩ | ⟨hnz, -⟩
        · exact (template_core_overflow_iff num (k1 + k2)).mpr
            ⟨by omega, Or.inl ⟨hz, by omega⟩⟩
        · exact absurd hz hnz
      · obtain ⟨-, hor⟩ := (template_core_overflow_iff num k2).mp h
        rcases hor with ⟨-, hc⟩ | ⟨hnz, -⟩
        · exact (template_core_overflow_iff num (k1 + k2)).mpr
            ⟨by omega, Or.inl ⟨hz, by omega⟩⟩
        · exact absurd hz hnz
  · have hpos : 0 < value num := Nat.pos_of_ne_zero hz
    have hvlt : value num < 2 ^ capacity_bits := value_lt hw
    have hlog : msbPos (value num) = Nat.log2 (value num) := msbPos_eq_log2 hpos hvlt
    by_cases ho1 : capacity_bits ≤ msbPos (value num) + k1
    · have hs1 : (bignum_template_core num k1).1 = .Overflow :=
        (template_core_overflow_iff num k1).mpr ⟨hk1, Or.inr ⟨hz, ho1⟩⟩
      constructor
      · rintro ⟨h1, -⟩
        rw [hs1] at h1
        exact absurd h1 (by simp)
      · intro _
        exact (template_core_overflow_iff num (k1 + k2)).mpr
          ⟨by omega, Or.inr ⟨hz, by omega⟩⟩
    · push_neg at ho1
      obtain ⟨l1, he1, hlen1, hlt1, hval1⟩ := template_core_success hw hz hk1 ho1
      have hw1 : Wf (⟨l1, normLen l1⟩ : bignum_t) := ⟨hlen1, hlt1⟩
      have hv1 : value (⟨l1, normLen l1⟩ : bignum_t) = value num * 2 ^ k1 := by
        rw [value_mk_norm, hval1]
      have hv1ne : value (⟨l1, normLen l1⟩ : bignum_t) ≠ 0 := by
        rw [hv1]
        exact Nat.mul_ne_zero hz (Nat.pos_iff_ne_zero.mp (pow_pos (by norm_num) k1))
      have hvlt1 : value (⟨l1, normLen l1⟩ : bignum_t) < 2 ^ capacity_bits := value_lt hw1
      have hlog1 : msbPos (value (⟨l1, normLen l1⟩ : bignum_t))
          = Nat.log2 (value num) + k1 := by
        rw [msbPos_eq_log2 (Nat.pos_of_ne_zero hv1ne) hvlt1, hv1, log2_mul_pow hz]
      rw [he1]
      dsimp only
      by_cases ho2 : capacity_bits ≤ msbPos (value (⟨l1, normLen l1⟩ : bignum_t)) + k2
      · have hs2 : (bignum_template_core ⟨l1, normLen l1⟩ k2).1 = .Overflow :=
          (template_core_overflow_iff _ k2).mpr ⟨hk2, Or.inr ⟨hv1ne, ho2⟩⟩
        constructor
        · rintro ⟨-, h2⟩
          rw [hs2] at h2
          exact absurd h2 (by simp)
        · intro _
          exact (template_core_overflow_iff num (k1 + k2)).mpr
            ⟨by omega, Or.inr ⟨hz, by omega⟩⟩
      · push_neg at ho2
        obtain ⟨l2, he2, hlen2, hlt2, hval2⟩ := template_core_success hw1 hv1ne hk2 ho2
        have ho3 : msbPos (value num) + (k1 + k2) < capacity_bits := by omega
        obtain ⟨l3, he3, hlen3, hlt3, hval3⟩ :=
          template_core_success hw hz (by omega : k1 + k2 ≠ 0) ho3
        have hval2' : valLE l2 = value num * 2 ^ (k1 + k2) := by
          rw [hval2, hv1, pow_add]
          ring
        have hll : l2 = l3 :=
          valLE_inj (by omega) hlt2 hlt3 (by rw [hval2', hval3])
        constructor
        · intro _
          rw [he2, he3, hll]
        · rintro (h | h)
          · exact absurd h (by simp)
          · rw [he2] at h
            exact absurd h (by simp)

/-- Witness for C5 at a concrete well-formed input. -/
theorem C5_shift_associativity_witness :
    Wf ⟨7 :: List.replicate 31 0, 1⟩ ∧
    ((((bignum_template_core ⟨7 :: List.replicate 31 0, 1⟩ 65).1 = .Success ∧
      (bignum_template_core (bignum_template_core ⟨7 :: List.replicate 31 0, 1⟩ 65).2 3).1
        = .Success) →
      (bignum_template_core (bignum_template_core ⟨7 :: List.replicate 31 0, 1⟩ 65).2 3).2
        = (bignum_template_core ⟨7 :: List.replicate 31 0, 1⟩ (65 + 3)).2) ∧
    (((bignum_template_core ⟨7 :: List.replicate 31 0, 1⟩ 65).1 = .Overflow ∨
      (bignum_template_core (bignum_template_core ⟨7 :: List.replicate 31 0, 1⟩ 65).2 3).1
        = .Overflow) →
      (bignum_template_core ⟨7 :: List.replicate 31 0, 1⟩ (65 + 3)).1 = .Overflow)) :=
  ⟨by decide, C5_shift_associativity ⟨7 :: List.replicate 31 0, 1⟩ 65 3 (by decide)⟩

/-! ## Claim theorems for the subtractor -/

/-- C7: subtract mutates only the result buffer: `a` and `b` are returned
bit-unchanged on every path, success and error alike; and on every
non-Success return (NullPointer, CapacityExceeded, BufferOverlap,
NegativeResult — including any aliased call) the result buffer also holds
exactly its pre-call contents. -/
theorem C7_subtract_frame (result a b : Option BufRef) :
    (bignum_sub result a b).2.2.1 = a ∧
    (bignum_sub result a b).2.2.2 = b ∧
    ((bignum_sub result a b).1 ≠ .Success → (bignum_sub result a b).2.1 = result) := by
  rcases result with _ | r
  · simp [bignum_sub]
  rcases a with _ | pa
  · simp [bignum_sub]
  rcases b with _ | pb
  · simp [bignum_sub]
  simp only [bignum_sub]
  split_ifs <;> simp

/-- Witness for C7: an aliased call (`result` and `a` share a buffer) is
rejected with the result buffer unmodified. -/
theorem C7_subtract_frame_witness :
    (bignum_sub (some ⟨0, ⟨10 :: List.replicate 31 0, 1⟩⟩)
      (some ⟨0, ⟨10 :: List.replicate 31 0, 1⟩⟩)
      (some ⟨1000, ⟨5 :: List.replicate 31 0, 1⟩⟩)).1 ≠ .Success ∧
    (bignum_sub (some ⟨0, ⟨10 :: List.replicate 31 0, 1⟩⟩)
      (some ⟨0, ⟨10 :: List.replicate 31 0, 1⟩⟩)
      (some ⟨1000, ⟨5 :: List.replicate 31 0, 1⟩⟩)).2.1
        = some ⟨0, ⟨10 :: List.replicate 31 0, 1⟩⟩ :=
  ⟨by decide,
    (C7_subtract_frame (some ⟨0, ⟨10 :: List.replicate 31 0, 1⟩⟩)
      (some ⟨0, ⟨10 :: List.replicate 31 0, 1⟩⟩)
      (some ⟨1000, ⟨5 :: List.replicate 31 0, 1⟩⟩)).2.2 (by decide)⟩

/-- C3: the subtractor's checks run in exact precedence, first match
winning: NullPointer if any argument is absent; else CapacityExceeded if
either operand length exceeds `BIGNUM_CAPACITY`, regardless of limb
contents; else BufferOverlap if any pair of the three buffers' byte ranges
intersect; else the call proceeds to the NegativeResult check (returning
NegativeResult or Success). -/
theorem C3_check_precedence (result a b : Option BufRef) :
    ((result = none ∨ a = none ∨ b = none) →
      (bignum_sub result a b).1 = .NullPtr) ∧
    (∀ r pa pb : BufRef, result = some r → a = some pa → b = some pb →
      (((BIGNUM_CAPACITY < pa.val.len ∨ BIGNUM_CAPACITY < pb.val.len) →
        (bignum_sub result a b).1 = .CapacityExceeded) ∧
      (pa.val.len ≤ BIGNUM_CAPACITY → pb.val.len ≤ BIGNUM_CAPACITY →
        (ranges_overlap r.addr pa.addr = true ∨ ranges_overlap r.addr pb.addr = true ∨
          ranges_overlap pa.addr pb.addr = true) →
        (bignum_sub result a b).1 = .BufferOverlap) ∧
      (pa.val.len ≤ BIGNUM_CAPACITY → pb.val.len ≤ BIGNUM_CAPACITY →
        ¬(ranges_overlap r.addr pa.addr = true ∨ ranges_overlap r.addr pb.addr = true ∨
          ranges_overlap pa.addr pb.addr = true) →
        ((bignum_sub result a b).1 = .NegativeResult ∨
          (bignum_sub result a b).1 = .Success)))) := by
  constructor
  · rintro (rfl | rfl | rfl)
    · simp [bignum_sub]
    · rcases result with _ | r
      · simp [bignum_sub]
      · rcases b with _ | pb <;> simp [bignum_sub]
    · rcases result with _ | r
      · simp [bignum_sub]
      · rcases a with _ | pa <;> simp [bignum_sub]
  · rintro r pa pb rfl rfl rfl
    refine ⟨?_, ?_, ?_⟩
    · intro hcap
      simp only [bignum_sub]
      rw [if_pos hcap]
    · intro hla hlb hov
      simp only [bignum_sub]
      rw [if_neg (by omega), if_pos hov]
    · intro hla hlb hov
      simp only [bignum_sub]
      rw [if_neg (by omega), if_neg hov]
      by_cases hlen : pa.val.len < pb.val.len
      · rw [if_pos hlen]
        simp
      · rw [if_neg hlen]
        split_ifs <;> simp

/-- Witness for C3: a null output pointer wins, and CapacityExceeded beats a
simultaneous buffer overlap (aliased `result`/`a` with `a.len = 33`). -/
theorem C3_check_precedence_witness :
    (bignum_sub none (some ⟨0, ⟨1 :: List.replicate 31 0, 1⟩⟩) none).1 = .NullPtr ∧
    (bignum_sub (some ⟨0, ⟨List.replicate 32 0, 0⟩⟩)
      (some ⟨0, ⟨1 :: List.replicate 31 0, 33⟩⟩)
      (some ⟨1000, ⟨1 :: List.replicate 31 0, 1⟩⟩)).1 = .CapacityExceeded :=
  ⟨(C3_check_precedence none (some ⟨0, ⟨1 :: List.replicate 31 0, 1⟩⟩) none).1
      (Or.inl rfl),
    ((C3_check_precedence (some ⟨0, ⟨List.replicate 32 0, 0⟩⟩)
      (some ⟨0, ⟨1 :: List.replicate 31 0, 33⟩⟩)
      (some ⟨1000, ⟨1 :: List.replicate 31 0, 1⟩⟩)).2 _ _ _ rfl rfl rfl).1
      (by decide)⟩

/-- C1 counterexample: with `a = [5]` (len 1, value 5) and the
non-normalized `b = [1, 0]` (len 2, value 1), every validity condition the
claim enumerates holds (non-null, pairwise non-overlapping buffers, lengths
at most 32) and `value(a) ≥ value(b)`, yet `subtract` does not return
Success: check 4 raises NegativeResult from `a.len < b.len` alone. -/
theorem C1_counterexample :
    value (⟨1 :: List.replicate 31 0, 2⟩ : bignum_t)
        ≤ value (⟨5 :: List.replicate 31 0, 1⟩ : bignum_t) ∧
    (⟨5 :: List.replicate 31 0, 1⟩ : bignum_t).len ≤ BIGNUM_CAPACITY ∧
    (⟨1 :: List.replicate 31 0, 2⟩ : bignum_t).len ≤ BIGNUM_CAPACITY ∧
    ranges_overlap 0 1000 = false ∧ ranges_overlap 0 2000 = false ∧
    ranges_overlap 1000 2000 = false ∧
    (bignum_sub (some ⟨0, ⟨List.replicate 32 0, 0⟩⟩)
      (some ⟨1000, ⟨5 :: List.replicate 31 0, 1⟩⟩)
      (some ⟨2000, ⟨1 :: List.replicate 31 0, 2⟩⟩)).1 ≠ .Success := by
  decide

/-- C1 (amended): for operands that are additionally in the representation's
normalized form (spec §3 invariant) — which the claim's "valid operands"
presuppose — with `value(a) ≥ value(b)`, subtract returns Success, writes
`subCore a b` into the result buffer, `value(result) = value(a) − value(b)`
exactly, and the result is normalized: length in `[1, 32]`, top limb nonzero
unless the difference is zero (then the canonical zero of length 1), and
every limb at index `≥ result.len` zeroed. -/
theorem C1_subtract_correct_amended (r pa pb : BufRef)
    (hwa : Wf pa.val) (hwb : Wf pb.val)
    (hla : pa.val.len ≤ BIGNUM_CAPACITY) (hlb : pb.val.len ≤ BIGNUM_CAPACITY)
    (hna : Normalized pa.val) (hnb : Normalized pb.val)
    (hov1 : ranges_overlap r.addr pa.addr = false)
    (hov2 : ranges_overlap r.addr pb.addr = false)
    (hov3 : ranges_overlap pa.addr pb.addr = false)
    (hge : value pb.val ≤ value pa.val) :
    (bignum_sub (some r) (some pa) (some pb)).1 = .Success ∧
    (bignum_sub (some r) (some pa) (some pb)).2.1
      = some ⟨r.addr, subCore pa.val pb.val⟩ ∧
    value (subCore pa.val pb.val) = value pa.val - value pb.val ∧
    1 ≤ (subCore pa.val pb.val).len ∧
    (subCore pa.val pb.val).len ≤ BIGNUM_CAPACITY ∧
    (value pa.val ≠ value pb.val →
      (subCore pa.val pb.val).words.getD ((subCore pa.val pb.val).len - 1) 0 ≠ 0) ∧
    (value pa.val = value pb.val → (subCore pa.val pb.val).len = 1) ∧
    (∀ i, (subCore pa.val pb.val).len ≤ i →
      (subCore pa.val pb.val).words.getD i 0 = 0) := by
  have hlen := len_le_of_value_le hwa hwb hla hlb hnb hge
  have heq := bignum_sub_success_eq hwa hwb hla hlb hov1 hov2 hov3 hlen hge
  obtain ⟨h1, h2, h3, h4, h5, h6, h7, h8⟩ := subCore_spec hwa hwb hla hlb hge
  rw [heq]
  exact ⟨rfl, rfl, h1, h4, h5, h6, h7, h8⟩

/-- Witness for the amended C1 at the repository's `test_simple_sub` vector
(`a = [10]`, `b = [5]`). -/
theorem C1_subtract_correct_amended_witness :
    (Wf (⟨10 :: List.replicate 31 0, 1⟩ : bignum_t) ∧
     Wf (⟨5 :: List.replicate 31 0, 1⟩ : bignum_t) ∧
     Normalized (⟨10 :: List.replicate 31 0, 1⟩ : bignum_t) ∧
     Normalized (⟨5 :: List.replicate 31 0, 1⟩ : bignum_t) ∧
     value (⟨5 :: List.replicate 31 0, 1⟩ : bignum_t)
       ≤ value (⟨10 :: List.replicate 31 0, 1⟩ : bignum_t)) ∧
    ((bignum_sub (some ⟨0, ⟨List.replicate 32 0, 0⟩⟩)
        (some ⟨1000, ⟨10 :: List.replicate 31 0, 1⟩⟩)
        (some ⟨2000, ⟨5 :: List.replicate 31 0, 1⟩⟩)).1 = .Success ∧
     (bignum_sub (some ⟨0, ⟨List.replicate 32 0, 0⟩⟩)
        (some ⟨1000, ⟨10 :: List.replicate 31 0, 1⟩⟩)
        (some ⟨2000, ⟨5 :: List.replicate 31 0, 1⟩⟩)).2.1
       = some ⟨0, subCore ⟨10 :: List.replicate 31 0, 1⟩ ⟨5 :: List.replicate 31 0, 1⟩⟩ ∧
     value (subCore ⟨10 :: List.replicate 31 0, 1⟩ ⟨5 :: List.replicate 31 0, 1⟩)
       = value (⟨10 :: List.replicate 31 0, 1⟩ : bignum_t)
         - value (⟨5 :: List.replicate 31 0, 1⟩ : bignum_t) ∧
     1 ≤ (subCore ⟨10 :: List.replicate 31 0, 1⟩ ⟨5 :: List.replicate 31 0, 1⟩).len ∧
     (subCore ⟨10 :: List.replicate 31 0, 1⟩ ⟨5 :: List.replicate 31 0, 1⟩).len
       ≤ BIGNUM_CAPACITY ∧
     (value (⟨10 :: List.replicate 31 0, 1⟩ : bignum_t)
        ≠ value (⟨5 :: List.replicate 31 0, 1⟩ : bignum_t) →
       (subCore ⟨10 :: List.replicate 31 0, 1⟩ ⟨5 :: List.replicate 31 0, 1⟩).words.getD
         ((subCore ⟨10 :: List.replicate 31 0, 1⟩ ⟨5 :: List.replicate 31 0, 1⟩).len - 1) 0
         ≠ 0) ∧
     (value (⟨10 :: List.replicate 31 0, 1⟩ : bignum_t)
        = value (⟨5 :: List.replicate 31 0, 1⟩ : bignum_t) →
       (subCore ⟨10 :: List.replicate 31 0, 1⟩ ⟨5 :: List.replicate 31 0, 1⟩).len = 1) ∧
     (∀ i, (subCore ⟨10 :: List.replicate 31 0, 1⟩ ⟨5 :: List.replicate 31 0, 1⟩).len ≤ i →
       (subCore ⟨10 :: List.replicate 31 0, 1⟩ ⟨5 :: List.replicate 31 0, 1⟩).words.getD i 0
         = 0)) :=
  ⟨⟨by decide, by decide, by decide, by decide, by decide⟩,
    C1_subtract_correct_amended ⟨0, ⟨List.replicate 32 0, 0⟩⟩
      ⟨1000, ⟨10 :: List.replicate 31 0, 1⟩⟩ ⟨2000, ⟨5 :: List.replicate 31 0, 1⟩⟩
      (by decide) (by decide) (by decide) (by decide) (by decide) (by decide)
      (by decide) (by decide) (by decide) (by decide)⟩

/-- C4 counterexample: with `a = [7]` (len 1, value 7) and the
non-normalized `b = [3, 0]` (len 2, value 3), all preceding checks pass and
`value(a) ≥ value(b)`, yet subtract returns NegativeResult — so
"NegativeResult exactly when `value(a) < value(b)`" fails as stated. -/
theorem C4_counterexample :
    (bignum_sub (some ⟨0, ⟨List.replicate 32 0, 0⟩⟩)
      (some ⟨1000, ⟨7 :: List.replicate 31 0, 1⟩⟩)
      (some ⟨2000, ⟨3 :: List.replicate 31 0, 2⟩⟩)).1 = .NegativeResult ∧
    ¬ value (⟨7 :: List.replicate 31 0, 1⟩ : bignum_t)
        < value (⟨3 :: List.replicate 31 0, 2⟩ : bignum_t) := by
  decide

/-- C4 (amended): for every `a, b` passing the null, capacity, and overlap
checks, subtract returns NegativeResult exactly when `a.len < b.len` or
`value(a) < value(b)` — the immediate length-based rejection plus the full
most-significant-limb-first comparison; for operands in normalized form the
two disjuncts collapse to `value(a) < value(b)` alone. -/
theorem C4_negative_result_iff (r pa pb : BufRef)
    (hwa : Wf pa.val) (hwb : Wf pb.val)
    (hla : pa.val.len ≤ BIGNUM_CAPACITY) (hlb : pb.val.len ≤ BIGNUM_CAPACITY)
    (hov1 : ranges_overlap r.addr pa.addr = false)
    (hov2 : ranges_overlap r.addr pb.addr = false)
    (hov3 : ranges_overlap pa.addr pb.addr = false) :
    (bignum_sub (some r) (some pa) (some pb)).1 = .NegativeResult ↔
      (pa.val.len < pb.val.len ∨ value pa.val < value pb.val) := by
  simp only [bignum_sub]
  rw [if_neg (by omega), if_neg (show ¬(ranges_overlap r.addr pa.addr = true ∨
    ranges_overlap r.addr pb.addr = true ∨ ranges_overlap pa.addr pb.addr = true) by
      simp [hov1, hov2, hov3])]
  by_cases hlen : pa.val.len < pb.val.len
  · rw [if_pos hlen]
    simp [hlen]
  · rw [if_neg hlen]
    rw [sub_cmp_eq hwa hwb hla hlb (by omega)]
    by_cases hlt : value pa.val < value pb.val
    · rw [if_pos (Nat.compare_eq_lt.mpr hlt)]
      simp [hlt]
    · rw [if_neg (show ¬ compare (value pa.val) (value pb.val) = Ordering.lt by
        rw [Nat.compare_eq_lt]; exact hlt)]
      simp [hlen, hlt]

/-- Witness for the amended C4 at the repository's
`test_err_negative_result` vector (`a = [5]`, `b = [10]`). -/
theorem C4_negative_result_iff_witness :
    (Wf (⟨5 :: List.replicate 31 0, 1⟩ : bignum_t) ∧
     Wf (⟨10 :: List.replicate 31 0, 1⟩ : bignum_t)) ∧
    ((bignum_sub (some ⟨0, ⟨List.replicate 32 0, 0⟩⟩)
        (some ⟨1000, ⟨5 :: List.replicate 31 0, 1⟩⟩)
        (some ⟨2000, ⟨10 :: List.replicate 31 0, 1⟩⟩)).1 = .NegativeResult ↔
      ((⟨5 :: List.replicate 31 0, 1⟩ : bignum_t).len
          < (⟨10 :: List.replicate 31 0, 1⟩ : bignum_t).len ∨
        value (⟨5 :: List.replicate 31 0, 1⟩ : bignum_t)
          < value (⟨10 :: List.replicate 31 0, 1⟩ : bignum_t))) :=
  ⟨⟨by decide, by decide⟩,
    C4_negative_result_iff ⟨0, ⟨List.replicate 32 0, 0⟩⟩
      ⟨1000, ⟨5 :: List.replicate 31 0, 1⟩⟩ ⟨2000, ⟨10 :: List.replicate 31 0, 1⟩⟩
      (by decide) (by decide) (by decide) (by decide) (by decide) (by decide) (by decide)⟩

/-- C10: the canonical zero produced by subtract is length 1 with
`words[0] = 0` — for every pair of valid (well-formed, in-capacity,
normalized, non-overlapping) operands with `value(a) = value(b)`, subtract
returns Success with `result.len = 1` and `result.words[0] = 0`; meanwhile a
zero operand encoded as length 0 is still accepted on input:
`subtract(result, a, b)` with `b.len = 0` returns Success with
`value(result) = value(a)`. -/
theorem C10_canonical_zero :
    (∀ r pa pb : BufRef, Wf pa.val → Wf pb.val →
      pa.val.len ≤ BIGNUM_CAPACITY → pb.val.len ≤ BIGNUM_CAPACITY →
      Normalized pb.val →
      ranges_overlap r.addr pa.addr = false →
      ranges_overlap r.addr pb.addr = false →
      ranges_overlap pa.addr pb.addr = false →
      value pa.val = value pb.val →
      (bignum_sub (some r) (some pa) (some pb)).1 = .Success ∧
      (subCore pa.val pb.val).len = 1 ∧
      (subCore pa.val pb.val).words.getD 0 0 = 0) ∧
    (∀ r pa pb : BufRef, Wf pa.val → Wf pb.val →
      pa.val.len ≤ BIGNUM_CAPACITY → pb.val.len = 0 →
      ranges_overlap r.addr pa.addr = false →
      ranges_overlap r.addr pb.addr = false →
      ranges_overlap pa.addr pb.addr = false →
      (bignum_sub (some r) (some pa) (some pb)).1 = .Success ∧
      (bignum_sub (some r) (some pa) (some pb)).2.1
        = some ⟨r.addr, subCore pa.val pb.val⟩ ∧
      value (subCore pa.val pb.val) = value pa.val) := by
  constructor
  · intro r pa pb hwa hwb hla hlb hnb hov1 hov2 hov3 heq
    have hge : value pb.val ≤ value pa.val := le_of_eq heq.symm
    have hlen := len_le_of_value_le hwa hwb hla hlb hnb hge
    have hsub := bignum_sub_success_eq hwa hwb hla hlb hov1 hov2 hov3 hlen hge
    obtain ⟨h1, h2, h3, h4, h5, h6, h7, h8⟩ := subCore_spec hwa hwb hla hlb hge
    have hlen1 : (subCore pa.val pb.val).len = 1 := h7 heq
    refine ⟨by rw [hsub], hlen1, ?_⟩
    have hval0 : value (subCore pa.val pb.val) = 0 := by omega
    rcases hws : (subCore pa.val pb.val).words with _ | ⟨w, t⟩
    · rw [hws] at h2
      simp [BIGNUM_CAPACITY] at h2
    · have : value (subCore pa.val pb.val) = w := by
        unfold value
        rw [hws, hlen1, List.take_cons (by omega), List.take_zero, valLE_cons, valLE_nil]
        ring
      simp [hws]
      omega
  · intro r pa pb hwa hwb hla hlb hov1 hov2 hov3
    have hvb : value pb.val = 0 := by
      unfold value
      rw [hlb, List.take_zero, valLE_nil]
    have hge : value pb.val ≤ value pa.val := by omega
    have hsub := bignum_sub_success_eq hwa hwb hla (by omega) hov1 hov2 hov3 (by omega) hge
    obtain ⟨h1, -, -, -, -, -, -, -⟩ := subCore_spec hwa hwb hla (by omega) hge
    exact ⟨by rw [hsub], by rw [hsub], by omega⟩

/-- Witness for C10: part 1 at `a = b = [100, 200]`
(`test_sub_to_zero_and_normalize`), part 2 at `a = [123, 456]`, `b` of
length 0 (`test_sub_zero_operand`). -/
theorem C10_canonical_zero_witness :
    ((bignum_sub (some ⟨0, ⟨List.replicate 32 0, 0⟩⟩)
        (some ⟨1000, ⟨100 :: 200 :: List.replicate 30 0, 2⟩⟩)
        (some ⟨2000, ⟨100 :: 200 :: List.replicate 30 0, 2⟩⟩)).1 = .Success ∧
      (subCore ⟨100 :: 200 :: List.replicate 30 0, 2⟩
        ⟨100 :: 200 :: List.replicate 30 0, 2⟩).len = 1 ∧
      (subCore ⟨100 :: 200 :: List.replicate 30 0, 2⟩
        ⟨100 :: 200 :: List.replicate 30 0, 2⟩).words.getD 0 0 = 0) ∧
    ((bignum_sub (some ⟨0, ⟨List.replicate 32 0, 0⟩⟩)
        (some ⟨1000, ⟨123 :: 456 :: List.replicate 30 0, 2⟩⟩)
        (some ⟨2000, ⟨List.replicate 32 0, 0⟩⟩)).1 = .Success ∧
      (bignum_sub (some ⟨0, ⟨List.replicate 32 0, 0⟩⟩)
        (some ⟨1000, ⟨123 :: 456 :: List.replicate 30 0, 2⟩⟩)
        (some ⟨2000, ⟨List.replicate 32 0, 0⟩⟩)).2.1
          = some ⟨0, subCore ⟨123 :: 456 :: List.replicate 30 0, 2⟩
              ⟨List.replicate 32 0, 0⟩⟩ ∧
      value (subCore ⟨123 :: 456 :: List.replicate 30 0, 2⟩ ⟨List.replicate 32 0, 0⟩)
        = value (⟨123 :: 456 :: List.replicate 30 0, 2⟩ : bignum_t)) :=
  ⟨C10_canonical_zero.1 ⟨0, ⟨List.replicate 32 0, 0⟩⟩
      ⟨1000, ⟨100 :: 200 :: List.replicate 30 0, 2⟩⟩
      ⟨2000, ⟨100 :: 200 :: List.replicate 30 0, 2⟩⟩
      (by decide) (by decide) (by decide) (by decide) (by decide) (by decide)
      (by decide) (by decide) (by decide),
    C10_canonical_zero.2 ⟨0, ⟨List.replicate 32 0, 0⟩⟩
      ⟨1000, ⟨123 :: 456 :: List.replicate 30 0, 2⟩⟩
      ⟨2000, ⟨List.replicate 32 0, 0⟩⟩
      (by decide) (by decide) (by decide) (by decide) (by decide) (by decide)
      (by decide)⟩

/-- C9: for arbitrary limb contents and lengths up to `capacity + 5`
(including out-of-contract lengths), the subtractor only ever hands back a
result buffer of exactly the fixed 32-limb size (it never writes outside
it), and whenever it returns Success, `value(result) ≤ value(a)` and
`result.len` lies in `[1, 32]`. -/
theorem C9_fuzz_invariants (r pa pb : BufRef)
    (hwr : r.val.words.length = BIGNUM_CAPACITY)
    (hwa : Wf pa.val) (hwb : Wf pb.val)
    (hla : pa.val.len ≤ BIGNUM_CAPACITY + 5) (hlb : pb.val.len ≤ BIGNUM_CAPACITY + 5) :
    ∃ out : BufRef, (bignum_sub (some r) (some pa) (some pb)).2.1 = some out ∧
      out.addr = r.addr ∧ out.val.words.length = BIGNUM_CAPACITY ∧
      ((bignum_sub (some r) (some pa) (some pb)).1 = .Success →
        value out.val ≤ value pa.val ∧
        1 ≤ out.val.len ∧ out.val.len ≤ BIGNUM_CAPACITY) := by
  simp only [bignum_sub]
  by_cases hcap : BIGNUM_CAPACITY < pa.val.len ∨ BIGNUM_CAPACITY < pb.val.len
  · rw [if_pos hcap]
    exact ⟨r, rfl, rfl, hwr, fun h => absurd h (by simp)⟩
  · rw [if_neg hcap]
    push_neg at hcap
    by_cases hov : ranges_overlap r.addr pa.addr = true ∨
        ranges_overlap r.addr pb.addr = true ∨ ranges_overlap pa.addr pb.addr = true
    · rw [if_pos hov]
      exact ⟨r, rfl, rfl, hwr, fun h => absurd h (by simp)⟩
    · rw [if_neg hov]
      by_cases hlen : pa.val.len < pb.val.len
      · rw [if_pos hlen]
        exact ⟨r, rfl, rfl, hwr, fun h => absurd h (by simp)⟩
      · rw [if_neg hlen]
        by_cases hcmp : cmpLimbs ((pad (pa.val.words.take pa.val.len) pa.val.len).zip
            (pad (pb.val.words.take pb.val.len) pa.val.len)) = .lt
        · rw [if_pos hcmp]
          exact ⟨r, rfl, rfl, hwr, fun h => absurd h (by simp)⟩
        · rw [if_neg hcmp]
          have hge : value pb.val ≤ value pa.val := by
            rw [sub_cmp_eq hwa hwb (by omega) (by omega) (by omega)] at hcmp
            rw [Nat.compare_eq_lt] at hcmp
            omega
          obtain ⟨h1, h2, -, h4, h5, -, -, -⟩ :=
            subCore_spec hwa hwb (by omega) (by omega) hge
          refine ⟨⟨r.addr, subCore pa.val pb.val⟩, rfl, rfl, h2, fun _ => ⟨?_, h4, h5⟩⟩
          show value (subCore pa.val pb.val) ≤ value pa.val
          omega

/-- Witness for C9 at an out-of-contract length (`a.len = 35`). -/
theorem C9_fuzz_invariants_witness :
    ((⟨0, ⟨List.replicate 32 0, 0⟩⟩ : BufRef).val.words.length = BIGNUM_CAPACITY ∧
     Wf (⟨9 :: List.replicate 31 0, 35⟩ : bignum_t) ∧
     Wf (⟨4 :: List.replicate 31 0, 1⟩ : bignum_t) ∧
     (⟨9 :: List.replicate 31 0, 35⟩ : bignum_t).len ≤ BIGNUM_CAPACITY + 5 ∧
     (⟨4 :: List.replicate 31 0, 1⟩ : bignum_t).len ≤ BIGNUM_CAPACITY + 5) ∧
    (∃ out : BufRef,
      (bignum_sub (some ⟨0, ⟨List.replicate 32 0, 0⟩⟩)
        (some ⟨1000, ⟨9 :: List.replicate 31 0, 35⟩⟩)
        (some ⟨2000, ⟨4 :: List.replicate 31 0, 1⟩⟩)).2.1 = some out ∧
      out.addr = 0 ∧ out.val.words.length = BIGNUM_CAPACITY ∧
      ((bignum_sub (some ⟨0, ⟨List.replicate 32 0, 0⟩⟩)
        (some ⟨1000, ⟨9 :: List.replicate 31 0, 35⟩⟩)
        (some ⟨2000, ⟨4 :: List.replicate 31 0, 1⟩⟩)).1 = .Success →
        value out.val ≤ value (⟨9 :: List.replicate 31 0, 35⟩ : bignum_t) ∧
        1 ≤ out.val.len ∧ out.val.len ≤ BIGNUM_CAPACITY)) :=
  ⟨⟨by decide, by decide, by decide, by decide, by decide⟩,
    C9_fuzz_invariants ⟨0, ⟨List.replicate 32 0, 0⟩⟩
      ⟨1000, ⟨9 :: List.replicate 31 0, 35⟩⟩ ⟨2000, ⟨4 :: List.replicate 31 0, 1⟩⟩
      (by decide) (by decide) (by decide) (by decide) (by decide)⟩

end BignumSub
